import Mathlib

/-
Verification of the Istanbul consensus message admission and backlog subsystem
(checkMessage, storeBacklog, processBacklog, toPriority and their supporting
data structures), shallowly embedded from the Go source.

Modelling notes:
* big.Int values are Int; uint64 values obtained through big.Int.Uint64 are
  modelled by toUint64 (reduction mod 2^64); Go's int64 wraparound on the
  priority computation is modelled by wrap64.
* The istanbul package (message codes, View.Cmp) is not part of the source
  slice; those definitions are modelled from the spec, which fixes the integer
  encoding Preprepare < Prepare < Commit and the lexicographic view order.
* go-ethereum's prque pops the entry with the LARGEST priority first; the
  queue is modelled as a push-ordered list with popMax removing the earliest
  entry of maximal priority.
* RLP payload decoding is modelled by an Option View field carried by the
  message: decoding succeeds iff the field is present, uniformly across the
  per-code payload types.
* A nil-pointer dereference (storeBacklog pushing with a nil view) is
  modelled by storeBacklog returning none.
* Events posted to the event bus are collected, in handoff order, in a list
  returned by processBacklog.
-/

namespace IstCore

/-- istanbul.View: a pair of big.Int coordinates (sequence, round). -/
structure View where
  sequence : Int
  round : Int
deriving DecidableEq

/-- istanbul.View.Cmp. Modelled from the spec: the view comparator is
lexicographic, sequence first, then round, returning -1/0/+1. -/
def View.cmp (a b : View) : Int :=
  if a.sequence < b.sequence then -1
  else if b.sequence < a.sequence then 1
  else if a.round < b.round then -1
  else if b.round < a.round then 1
  else 0

/-- istanbul message code MsgPreprepare. Modelled from the spec: the four codes
are consecutive with Preprepare < Prepare < Commit on the integer encoding. -/
def MsgPreprepare : Nat := 0

/-- istanbul message code MsgPrepare. Modelled from the spec. -/
def MsgPrepare : Nat := 1

/-- istanbul message code MsgCommit. Modelled from the spec. -/
def MsgCommit : Nat := 2

/-- istanbul message code MsgRoundChange. Modelled from the spec. -/
def MsgRoundChange : Nat := 3

/-- msgPriority map from the source; a Go map lookup yields 0 on absent keys. -/
def msgPriority (code : Nat) : Nat :=
  if code = MsgPreprepare then 1
  else if code = MsgCommit then 2
  else if code = MsgPrepare then 3
  else 0

/-- acceptMaxFutureSequence = big.NewInt(10). -/
def acceptMaxFutureSequence : Int := 10

/-- acceptMaxFutureMsgsFromOneValidator = 1000. -/
def acceptMaxFutureMsgsFromOneValidator : Int := 1000

/-- acceptMaxFutureMessages = 10 * 1000. -/
def acceptMaxFutureMessages : Int := 10 * 1000

/-- acceptMaxFutureMessagesPruneBatch = 100. -/
def acceptMaxFutureMessagesPruneBatch : Int := 100

/-- big.Int.Uint64: reduction of the integer to its low 64 bits. -/
def toUint64 (z : Int) : Nat := (z % (2 : Int) ^ 64).toNat

/-- Reinterpretation of an integer as a wrapped two's-complement int64 value. -/
def wrap64 (z : Int) : Int := (z + 2 ^ 63) % 2 ^ 64 - 2 ^ 63

/-- toPriority from the source: 0 for round changes (they come first on the
max-pop queue); otherwise -int64(view.Round.Uint64()*10 + msgPriority[code]),
with uint64 multiplication and int64 negation wrapping as in Go. -/
def toPriority (msgCode : Nat) (view : View) : Int :=
  if msgCode = MsgRoundChange then 0
  else wrap64 (-((toUint64 view.round * 10 + msgPriority msgCode : Nat) : Int))

/-- The istanbul core states, as in the source's StateAcceptRequest etc. -/
inductive IState where
  | stateAcceptRequest
  | statePreprepared
  | statePrepared
  | stateCommitted
  | stateWaitingForNewRound
deriving DecidableEq

/-- istanbul.Subject, restricted to the field checkMessage consults. -/
structure Subject where
  view : View
deriving DecidableEq

/-- Snapshot of the collaborators checkMessage / the backlog consult: own
address, current view, desired round, state, backend.LastSubject (which may
fail with an opaque backend error, coded by a natural number), and the
validator-set membership test. -/
structure Env where
  self : Nat
  currentView : View
  desiredRound : Int
  state : IState
  lastSubject : Except Nat Subject
  valSet : Nat → Bool

/-- A possibly nil istanbul.View pointer with possibly nil big.Int fields. -/
structure ViewPtr where
  sequence : Option Int
  round : Option Int
deriving DecidableEq

/-- The Go error results of checkMessage; backendErr n is an error value
propagated from backend.LastSubject. -/
inductive GoErr where
  | errInvalidMessage
  | errFutureMessage
  | errOldMessage
  | errTooFarInTheFutureMessage
  | backendErr (code : Nat)
deriving DecidableEq

/-- checkMessage from the source: none models the nil (admit) result. -/
def checkMessage (env : Env) (msgCode : Nat) (view : Option ViewPtr) : Option GoErr :=
  match view with
  | none => some .errInvalidMessage
  | some vp =>
    match vp.sequence, vp.round with
    | some s, some r =>
      if s > env.currentView.sequence + acceptMaxFutureSequence then
        some .errTooFarInTheFutureMessage
      else if msgCode = MsgRoundChange then
        (if s > env.currentView.sequence then some .errFutureMessage
         else if r < env.desiredRound then some .errOldMessage
         else none)
      else if View.cmp ⟨s, r⟩ env.currentView > 0 then some .errFutureMessage
      else if View.cmp ⟨s, r⟩ env.currentView < 0 then
        (if msgCode = MsgCommit then
           match env.lastSubject with
           | .error n => some (.backendErr n)
           | .ok lastSubject =>
             if View.cmp ⟨s, r⟩ lastSubject.view = 0 then none
             else some .errOldMessage
         else some .errOldMessage)
      else
        if env.state = .stateWaitingForNewRound then some .errFutureMessage
        else if env.state = .stateAcceptRequest then
          (if msgCode > MsgPreprepare then some .errFutureMessage else none)
        else none
    | _, _ => some .errInvalidMessage

/-- A consensus message: sender address, wire code, and its payload abstracted
to the view it decodes to (none when RLP decoding fails). -/
structure Message where
  address : Nat
  code : Nat
  payload : Option View
deriving DecidableEq

/-- The per-code decode switch shared by storeBacklog and the replay callback:
for the four istanbul codes the payload's view is extracted, any other code
leaves the view pointer nil. -/
def decodeViewByCode (m : Message) : Option View :=
  if m.code = MsgPreprepare ∨ m.code = MsgPrepare ∨ m.code = MsgCommit ∨
      m.code = MsgRoundChange then
    m.payload
  else none

/-- A per-sequence priority queue: entries in push order, each carrying the
priority it was pushed with. -/
abbrev Queue := List (Int × Message)

/-- Pop from a prque: the earliest entry among those of maximal priority,
together with the remaining queue. -/
def popMax : Queue → Option ((Int × Message) × Queue)
  | [] => none
  | x :: xs =>
    match popMax xs with
    | none => some (x, [])
    | some (y, rest) => if y.1 > x.1 then some (y, x :: rest) else some (x, xs)

/-- Pop-until-empty with explicit fuel (the queue shrinks by one per pop). -/
def popAllFuel : Nat → Queue → List (Int × Message)
  | 0, _ => []
  | n + 1, q =>
    match popMax q with
    | none => []
    | some (e, rest) => e :: popAllFuel n rest

/-- The sequence of entries produced by popping a prque until empty. -/
def popAll (q : Queue) : List (Int × Message) := popAllFuel q.length q

/-- First-match lookup in the per-sequence map. -/
def lookupQ : List (Nat × Queue) → Nat → Option Queue
  | [], _ => none
  | (k, q) :: rest, s => if k = s then some q else lookupQ rest s

/-- Go map read with default 0: the per-validator counter of an address. -/
def lookupVal : List (Nat × Int) → Nat → Int
  | [], _ => 0
  | (k, v) :: rest, a => if k = a then v else lookupVal rest a

/-- Go map update m[a] += d, creating the entry from 0 when absent. -/
def bumpVal : List (Nat × Int) → Nat → Int → List (Nat × Int)
  | [], a, d => [(a, d)]
  | (k, v) :: rest, a, d =>
    if k = a then (k, v + d) :: rest else (k, v) :: bumpVal rest a d

/-- Append an entry to the queue of a sequence, creating the queue if absent. -/
def pushSeq : List (Nat × Queue) → Nat → (Int × Message) → List (Nat × Queue)
  | [], s, e => [(s, [e])]
  | (k, q) :: rest, s, e =>
    if k = s then (k, q ++ [e]) :: rest else (k, q) :: pushSeq rest s e

/-- The backlog fields of the core: per-sequence queues, per-validator message
counts, and the global count. -/
structure BacklogState where
  backlogBySeq : List (Nat × Queue)
  backlogCountByVal : List (Nat × Int)
  backlogTotal : Int
deriving DecidableEq

/-- The freshly constructed, empty backlog. -/
def emptyBacklog : BacklogState := ⟨[], [], 0⟩

/-- The keys of the per-sequence map. -/
def keysOf (st : BacklogState) : List Nat := st.backlogBySeq.map Prod.fst

/-- Sum of the per-validator counters. -/
def sumVals (l : List (Nat × Int)) : Int := (l.map Prod.snd).sum

/-- Sum of the sizes of the per-sequence queues. -/
def sumSizes (l : List (Nat × Queue)) : Int := (l.map (fun kv => (kv.2.length : Int))).sum

/-- getSortedBacklogSeqs: the sequences present in the backlog, ascending. -/
def getSortedBacklogSeqs (st : BacklogState) : List Nat :=
  (st.backlogBySeq.map Prod.fst).insertionSort (· ≤ ·)

/-- Go map deletion of a sequence key. -/
def delSeq : List (Nat × Queue) → Nat → List (Nat × Queue)
  | [], _ => []
  | (k, q) :: rest, s => if k = s then delSeq rest s else (k, q) :: delSeq rest s

/-- drainBacklogForSeq: pop the queue of a sequence until empty, decrementing
both counters per entry, and delete the queue. The second component lists, in
pop order, the messages handed to the callback (those whose sender is still in
the validator set); a caller passing a nil callback ignores it. -/
def drainBacklogForSeq (env : Env) (st : BacklogState) (seq : Nat) :
    BacklogState × List Message :=
  match lookupQ st.backlogBySeq seq with
  | none => (st, [])
  | some q =>
    let entries := popAll q
    ⟨⟨delSeq st.backlogBySeq seq,
      entries.foldl (fun acc e => bumpVal acc e.2.address (-1)) st.backlogCountByVal,
      st.backlogTotal - entries.length⟩,
     (entries.map Prod.snd).filter (fun m => env.valSet m.address)⟩

/-- The cap-enforcement loop of storeBacklog, walking the pre-computed sorted
sequence list from the highest sequence down, never touching the lowest. -/
def pruneLoop (env : Env) : List Nat → BacklogState → BacklogState
  | [], st => st
  | seq :: rest, st =>
    if seq ≤ toUint64 env.currentView.sequence ∨
        st.backlogTotal < acceptMaxFutureMessages - acceptMaxFutureMessagesPruneBatch then
      st
    else pruneLoop env rest (drainBacklogForSeq env st seq).1

/-- The global-cap pruning step at the end of storeBacklog. -/
def pruneIfNeeded (env : Env) (st : BacklogState) : BacklogState :=
  if st.backlogTotal > acceptMaxFutureMessages then
    pruneLoop env ((getSortedBacklogSeqs st).drop 1).reverse st
  else st

/-- The locked tail of storeBacklog: per-validator cap check, counter
increments, the push keyed by the decoded view's sequence (none models the
nil-view dereference), and cap enforcement. -/
def storeBody (env : Env) (st : BacklogState) (msg : Message) (srcAddr : Nat)
    (v : Option View) : Option BacklogState :=
  if lookupVal st.backlogCountByVal msg.address > acceptMaxFutureMsgsFromOneValidator then
    some st
  else
    match v with
    | none => none
    | some v =>
      some (pruneIfNeeded env
        ⟨pushSeq st.backlogBySeq (toUint64 v.sequence) (toPriority msg.code v, msg),
         bumpVal st.backlogCountByVal srcAddr 1,
         st.backlogTotal + 1⟩)

/-- storeBacklog from the source: drop messages from self, decode the view by
code (returning on a decode error, leaving the view nil on an unknown code),
then run the locked store body. -/
def storeBacklog (env : Env) (st : BacklogState) (msg : Message) (srcAddr : Nat) :
    Option BacklogState :=
  if msg.address = env.self then some st
  else if msg.code = MsgPreprepare ∨ msg.code = MsgPrepare ∨ msg.code = MsgCommit ∨
      msg.code = MsgRoundChange then
    match msg.payload with
    | none => some st
    | some v => storeBody env st msg srcAddr (some v)
  else storeBody env st msg srcAddr none

/-- The replay callback of processBacklog: re-decode the view, re-run
checkMessage, and post exactly the admitted messages. -/
def replayCheck (env : Env) (m : Message) : Bool :=
  match decodeViewByCode m with
  | none => false
  | some v =>
    match checkMessage env m.code (some ⟨some v.sequence, some v.round⟩) with
    | none => true
    | some _ => false

/-- The loop of processBacklog over the sorted sequence snapshot: prune earlier
sequences, drain and replay the current sequence, stop at future ones. The
second component is the list of messages posted to the event bus, in order. -/
def processLoop (env : Env) : List Nat → BacklogState → List Message →
    BacklogState × List Message
  | [], st, acc => (st, acc)
  | seq :: rest, st, acc =>
    if seq < toUint64 env.currentView.sequence then
      processLoop env rest (drainBacklogForSeq env st seq).1 acc
    else if seq = toUint64 env.currentView.sequence then
      processLoop env rest (drainBacklogForSeq env st seq).1
        (acc ++ (drainBacklogForSeq env st seq).2.filter (replayCheck env))
    else (st, acc)

/-- processBacklog from the source. -/
def processBacklog (env : Env) (st : BacklogState) : BacklogState × List Message :=
  processLoop env (getSortedBacklogSeqs st) st []

/-- A call into the subsystem: storeBacklog with the message, the resolved
source validator's address and the engine snapshot at call time, or
processBacklog with the engine snapshot at call time. -/
inductive Op where
  | store (msg : Message) (srcAddr : Nat) (env : Env)
  | process (env : Env)

/-- One public backlog operation; none models a nil-view panic. -/
def stepOp (st : BacklogState) : Op → Option BacklogState
  | .store m src env => storeBacklog env st m src
  | .process env => some (processBacklog env st).1

/-- Run a list of operations from a given backlog state. -/
def runFrom (st : BacklogState) : List Op → Option BacklogState
  | [] => some st
  | op :: rest =>
    match stepOp st op with
    | none => none
    | some st' => runFrom st' rest

/-- Run a list of operations from the empty backlog. -/
def runOps (ops : List Op) : Option BacklogState := runFrom emptyBacklog ops

/-- Well-formed call: callers of storeBacklog resolve the source validator by
the message's sender address, so both coincide. -/
def Op.srcOk : Op → Prop
  | .store m src _ => src = m.address
  | .process _ => True

instance : DecidablePred Op.srcOk := by
  intro op
  cases op with
  | store m src env => exact inferInstanceAs (Decidable (src = m.address))
  | process env => exact inferInstanceAs (Decidable True)

/-- Priority a message carries on the queue, recomputed from its decoded view. -/
def msgPrio (m : Message) : Int :=
  match decodeViewByCode m with
  | some v => toPriority m.code v
  | none => 0

/-- Counter consistency (spec invariant I2): the global total equals the sum of
the per-validator counters and the sum of the queue sizes; queue keys unique
(Go maps cannot hold duplicate keys). -/
def InvC9 (st : BacklogState) : Prop :=
  (st.backlogBySeq.map Prod.fst).Nodup ∧
  st.backlogTotal = sumSizes st.backlogBySeq ∧
  st.backlogTotal = sumVals st.backlogCountByVal

/-- Per-validator counter bound actually enforced by the source's strict
comparison: one above the constant. -/
def InvC1 (st : BacklogState) : Prop :=
  ∀ a : Nat, lookupVal st.backlogCountByVal a ≤ acceptMaxFutureMsgsFromOneValidator + 1

/-- Every queue entry carries the priority toPriority assigns to its message's
decoded view (true of every entry storeBacklog pushes). -/
def QWF (l : List (Nat × Queue)) : Prop :=
  ∀ kv ∈ l, ∀ e ∈ kv.2, ∀ v, decodeViewByCode e.2 = some v → e.1 = toPriority e.2.code v

/-- QWF lifted to a backlog state. -/
def QueuesWF (st : BacklogState) : Prop := QWF st.backlogBySeq

/-- The messages sitting in the queue keyed by the current sequence. -/
def msgsAtCur (env : Env) (st : BacklogState) : List Message :=
  match lookupQ st.backlogBySeq (toUint64 env.currentView.sequence) with
  | some q => q.map Prod.snd
  | none => []

/-- Collaborator snapshot used in the concrete scenarios: own address 0,
current view (5, 0), desired round 0, state Preprepared, last committed
subject at view (4, 0), every address a validator. -/
def env5 : Env := ⟨0, ⟨5, 0⟩, 0, .statePreprepared, .ok ⟨⟨4, 0⟩⟩, fun _ => true⟩

/-- The scenario snapshot after the view advanced to (6, 0). -/
def env6 : Env := ⟨0, ⟨6, 0⟩, 0, .statePreprepared, .ok ⟨⟨5, 0⟩⟩, fun _ => true⟩

/-- Snapshot for the late-commit scenario: current view (10, 0), state
AcceptRequest, last committed subject at view (9, 3). -/
def env10 : Env := ⟨0, ⟨10, 0⟩, 0, .stateAcceptRequest, .ok ⟨⟨9, 3⟩⟩, fun _ => true⟩

/-- Snapshot for the round-change scenario: current view (5, 2), desired
round 4. -/
def env52 : Env := ⟨0, ⟨5, 2⟩, 4, .statePreprepared, .ok ⟨⟨4, 0⟩⟩, fun _ => true⟩

/-- Snapshot whose LastSubject lookup fails with backend error 0. -/
def envErr : Env := ⟨0, ⟨5, 0⟩, 0, .stateAcceptRequest, .error 0, fun _ => true⟩

/-- A well-formed view pointer. -/
def vp (s r : Int) : Option ViewPtr := some ⟨some s, some r⟩

/-- A Prepare message for view (6, 0) from validator 1. -/
def pMsg : Message := ⟨1, MsgPrepare, some ⟨6, 0⟩⟩

/-- A Preprepare message for view (6, 0) from validator 1. -/
def ppMsg : Message := ⟨1, MsgPreprepare, some ⟨6, 0⟩⟩

/-- A Commit message for view (6, 0) from validator 1. -/
def cMsg : Message := ⟨1, MsgCommit, some ⟨6, 0⟩⟩

/-- A RoundChange message for view (6, 0) from validator 1. -/
def rcMsg : Message := ⟨1, MsgRoundChange, some ⟨6, 0⟩⟩

/-- The store-and-replay scenario: at current sequence 5, the four messages
for sequence 6 arrive in the order Prepare, Preprepare, Commit, RoundChange. -/
def scenarioOps : List Op :=
  [.store pMsg 1 env5, .store ppMsg 1 env5, .store cMsg 1 env5, .store rcMsg 1 env5]

/-- The single store operation of the quota scenario. -/
def c1op : Op := .store pMsg 1 env5

/-- Closed form of the backlog after n repeated stores of pMsg (n ≥ 1): one
queue at sequence 6 with n copies at priority -3, counter n for validator 1. -/
def c1state (n : Nat) : BacklogState :=
  ⟨[(6, List.replicate n (-3, pMsg))], [(1, (n : Int))], (n : Int)⟩

/-- A backlog holding one message each at sequences 3 and 4. -/
def st34 : BacklogState :=
  ⟨[(3, [((0 : Int), ⟨1, MsgPrepare, some ⟨3, 0⟩⟩)]),
    (4, [((0 : Int), ⟨1, MsgPrepare, some ⟨4, 0⟩⟩)])], [(1, 2)], 2⟩

/-- A backlog in which validator 1 is already over the per-validator cap. -/
def stCap : BacklogState := ⟨[], [(1, 1001)], 1001⟩

/-- A message whose code is none of the four istanbul codes. -/
def badMsg : Message := ⟨1, 7, some ⟨6, 0⟩⟩

section AssocLemmas

theorem lookupVal_bumpVal (l : List (Nat × Int)) (a : Nat) (d : Int) (b : Nat) :
    lookupVal (bumpVal l a d) b = if b = a then lookupVal l b + d else lookupVal l b := by
  induction l with
  | nil =>
    simp only [bumpVal, lookupVal]
    split_ifs <;> omega
  | cons kv rest ih =>
    obtain ⟨k, v⟩ := kv
    by_cases hka : k = a
    · subst hka
      simp only [bumpVal, if_pos rfl, lookupVal]
      split_ifs <;> omega
    · simp only [bumpVal, if_neg hka, lookupVal, ih]
      split_ifs <;> omega

theorem sumVals_bumpVal (l : List (Nat × Int)) (a : Nat) (d : Int) :
    sumVals (bumpVal l a d) = sumVals l + d := by
  induction l with
  | nil => simp [bumpVal, sumVals]
  | cons kv rest ih =>
    obtain ⟨k, v⟩ := kv
    by_cases hka : k = a
    · subst hka
      simp [bumpVal, sumVals]
      omega
    · simp only [bumpVal, if_neg hka, sumVals, List.map_cons, List.sum_cons] at ih ⊢
      omega

theorem sumSizes_pushSeq (l : List (Nat × Queue)) (s : Nat) (e : Int × Message) :
    sumSizes (pushSeq l s e) = sumSizes l + 1 := by
  induction l with
  | nil => simp [pushSeq, sumSizes]
  | cons kv rest ih =>
    obtain ⟨k, q⟩ := kv
    by_cases hks : k = s
    · subst hks
      simp [pushSeq, sumSizes]
      omega
    · simp only [pushSeq, if_neg hks, sumSizes, List.map_cons, List.sum_cons] at ih ⊢
      omega

theorem mem_keys_pushSeq (l : List (Nat × Queue)) (s : Nat) (e : Int × Message) (a : Nat) :
    a ∈ (pushSeq l s e).map Prod.fst ↔ a ∈ l.map Prod.fst ∨ a = s := by
  induction l with
  | nil => simp [pushSeq]
  | cons kv rest ih =>
    obtain ⟨k, q⟩ := kv
    by_cases hks : k = s
    · subst hks
      simp [pushSeq]
      tauto
    · simp only [pushSeq, if_neg hks, List.map_cons, List.mem_cons, ih]
      tauto

theorem nodup_keys_pushSeq (l : List (Nat × Queue)) (s : Nat) (e : Int × Message)
    (h : (l.map Prod.fst).Nodup) : ((pushSeq l s e).map Prod.fst).Nodup := by
  induction l with
  | nil => simp [pushSeq]
  | cons kv rest ih =>
    obtain ⟨k, q⟩ := kv
    rw [List.map_cons, List.nodup_cons] at h
    by_cases hks : k = s
    · subst hks
      have hp : pushSeq ((k, q) :: rest) k e = (k, q ++ [e]) :: rest := by
        simp [pushSeq]
      rw [hp, List.map_cons, List.nodup_cons]
      exact h
    · rw [pushSeq, if_neg hks, List.map_cons, List.nodup_cons]
      refine ⟨?_, ih h.2⟩
      intro hmem
      rcases (mem_keys_pushSeq rest s e k).mp hmem with h1 | h1
      · exact h.1 h1
      · exact hks h1

theorem lookupQ_eq_none_iff (l : List (Nat × Queue)) (s : Nat) :
    lookupQ l s = none ↔ s ∉ l.map Prod.fst := by
  induction l with
  | nil => simp [lookupQ]
  | cons kv rest ih =>
    obtain ⟨k, q⟩ := kv
    by_cases hks : k = s
    · subst hks
      simp [lookupQ]
    · rw [lookupQ, if_neg hks, List.map_cons]
      simp only [List.mem_cons, ih]
      constructor
      · intro hn hc
        rcases hc with hc | hc
        · exact hks hc.symm
        · exact hn hc
      · intro hn
        intro hc
        exact hn (Or.inr hc)

theorem mem_of_mem_delSeq (l : List (Nat × Queue)) (s : Nat) (kv : Nat × Queue)
    (h : kv ∈ delSeq l s) : kv ∈ l := by
  induction l with
  | nil => simp [delSeq] at h
  | cons kv' rest ih =>
    obtain ⟨k, q⟩ := kv'
    by_cases hks : k = s
    · rw [delSeq, if_pos hks] at h
      exact List.mem_cons_of_mem _ (ih h)
    · rw [delSeq, if_neg hks] at h
      rcases List.mem_cons.mp h with h1 | h1
      · exact h1 ▸ List.mem_cons_self _ _
      · exact List.mem_cons_of_mem _ (ih h1)

theorem mem_keys_delSeq (l : List (Nat × Queue)) (s a : Nat) :
    a ∈ (delSeq l s).map Prod.fst ↔ a ∈ l.map Prod.fst ∧ a ≠ s := by
  induction l with
  | nil => simp [delSeq]
  | cons kv rest ih =>
    obtain ⟨k, q⟩ := kv
    by_cases hks : k = s
    · subst hks
      rw [delSeq, if_pos rfl, List.map_cons]
      simp only [List.mem_cons, ih]
      constructor
      · intro h
        exact ⟨Or.inr h.1, h.2⟩
      · intro h
        rcases h.1 with h1 | h1
        · exact absurd h1 h.2
        · exact ⟨h1, h.2⟩
    · rw [delSeq, if_neg hks, List.map_cons, List.map_cons]
      simp only [List.mem_cons, ih]
      constructor
      · intro h
        rcases h with h1 | h1
        · subst h1
          exact ⟨Or.inl rfl, hks⟩
        · exact ⟨Or.inr h1.1, h1.2⟩
      · intro h
        rcases h.1 with h1 | h1
        · exact Or.inl h1
        · exact Or.inr ⟨h1, h.2⟩

theorem nodup_keys_delSeq (l : List (Nat × Queue)) (s : Nat)
    (h : (l.map Prod.fst).Nodup) : ((delSeq l s).map Prod.fst).Nodup := by
  induction l with
  | nil => simp [delSeq]
  | cons kv rest ih =>
    obtain ⟨k, q⟩ := kv
    rw [List.map_cons, List.nodup_cons] at h
    by_cases hks : k = s
    · rw [delSeq, if_pos hks]
      exact ih h.2
    · rw [delSeq, if_neg hks, List.map_cons, List.nodup_cons]
      refine ⟨?_, ih h.2⟩
      intro hmem
      exact h.1 ((mem_keys_delSeq rest s k).mp hmem).1

theorem delSeq_of_not_mem (l : List (Nat × Queue)) (s : Nat)
    (h : s ∉ l.map Prod.fst) : delSeq l s = l := by
  induction l with
  | nil => rfl
  | cons kv rest ih =>
    obtain ⟨k, q⟩ := kv
    rw [List.map_cons, List.mem_cons] at h
    push_neg at h
    rw [delSeq, if_neg (fun hc => h.1 hc.symm), ih h.2]

theorem sumSizes_delSeq_of_lookup (l : List (Nat × Queue)) (s : Nat) (q : Queue)
    (hnd : (l.map Prod.fst).Nodup) (hl : lookupQ l s = some q) :
    sumSizes (delSeq l s) = sumSizes l - q.length := by
  induction l with
  | nil => simp [lookupQ] at hl
  | cons kv rest ih =>
    obtain ⟨k, q'⟩ := kv
    rw [List.map_cons, List.nodup_cons] at hnd
    by_cases hks : k = s
    · subst hks
      rw [lookupQ, if_pos rfl, Option.some_inj] at hl
      subst hl
      rw [delSeq, if_pos rfl, delSeq_of_not_mem rest k hnd.1]
      simp only [sumSizes, List.map_cons, List.sum_cons]
      omega
    · rw [lookupQ, if_neg hks] at hl
      rw [delSeq, if_neg hks]
      simp only [sumSizes, List.map_cons, List.sum_cons] at ih ⊢
      rw [ih hnd.2 hl]
      omega

theorem lookupQ_delSeq_ne (l : List (Nat × Queue)) (s k : Nat) (h : k ≠ s) :
    lookupQ (delSeq l s) k = lookupQ l k := by
  induction l with
  | nil => rfl
  | cons kv rest ih =>
    obtain ⟨k', q⟩ := kv
    by_cases hk's : k' = s
    · subst hk's
      rw [delSeq, if_pos rfl, lookupQ, if_neg (fun hc => h hc.symm)]
      exact ih
    · rw [delSeq, if_neg hk's]
      by_cases hk'k : k' = k
      · rw [lookupQ, if_pos hk'k, lookupQ, if_pos hk'k]
      · rw [lookupQ, if_neg hk'k, lookupQ, if_neg hk'k]
        exact ih

theorem lookupQ_delSeq_self (l : List (Nat × Queue)) (s : Nat) :
    lookupQ (delSeq l s) s = none := by
  rw [lookupQ_eq_none_iff]
  intro hmem
  exact ((mem_keys_delSeq l s s).mp hmem).2 rfl

end AssocLemmas

section QueueLemmas

theorem popMax_eq_none (q : Queue) (h : popMax q = none) : q = [] := by
  cases q with
  | nil => rfl
  | cons x xs =>
    rw [popMax] at h
    cases hm : popMax xs with
    | none => rw [hm] at h; simp at h
    | some yr =>
      obtain ⟨y, rest⟩ := yr
      rw [hm] at h
      by_cases hy : y.1 > x.1 <;> simp [hy] at h

theorem popMax_spec (q : Queue) (e : Int × Message) (rest : Queue)
    (h : popMax q = some (e, rest)) :
    e ∈ q ∧ List.Sublist rest q ∧ rest.length + 1 = q.length ∧ ∀ x ∈ q, x.1 ≤ e.1 := by
  induction q generalizing e rest with
  | nil => simp [popMax] at h
  | cons x xs ih =>
    rw [popMax] at h
    cases hm : popMax xs with
    | none =>
      have hxs : xs = [] := popMax_eq_none xs hm
      subst hxs
      rw [hm] at h
      simp at h
      obtain ⟨he, hr⟩ := h
      subst he; subst hr
      refine ⟨List.mem_cons_self _ _, List.nil_sublist _, by simp, ?_⟩
      intro z hz
      rcases List.mem_cons.mp hz with h1 | h1
      · subst h1; exact le_refl _
      · simp at h1
    | some yr =>
      obtain ⟨y, rest'⟩ := yr
      rw [hm] at h
      obtain ⟨hy_mem, hsub, hlen, hmax⟩ := ih y rest' hm
      by_cases hgt : y.1 > x.1
      · simp [hgt] at h
        obtain ⟨he, hr⟩ := h
        subst he; subst hr
        refine ⟨List.mem_cons_of_mem _ hy_mem, List.Sublist.cons₂ _ hsub, by simp; omega, ?_⟩
        intro z hz
        rcases List.mem_cons.mp hz with h1 | h1
        · subst h1; exact le_of_lt hgt
        · exact hmax z h1
      · simp [hgt] at h
        obtain ⟨he, hr⟩ := h
        subst he; subst hr
        refine ⟨List.mem_cons_self _ _, List.Sublist.cons _ (List.Sublist.refl _), by simp, ?_⟩
        intro z hz
        rcases List.mem_cons.mp hz with h1 | h1
        · subst h1; exact le_refl _
        · exact le_trans (hmax z h1) (le_of_not_lt hgt)

theorem popAllFuel_spec (n : Nat) (q : Queue) (hn : q.length ≤ n) :
    (popAllFuel n q).length = q.length ∧ (∀ x ∈ popAllFuel n q, x ∈ q) ∧
      (popAllFuel n q).Pairwise (fun a b => b.1 ≤ a.1) := by
  induction n generalizing q with
  | zero =>
    have hq : q = [] := List.length_eq_zero.mp (Nat.le_zero.mp hn)
    subst hq
    simp [popAllFuel]
  | succ n ih =>
    cases hm : popMax q with
    | none =>
      have hq : q = [] := popMax_eq_none q hm
      subst hq
      simp [popAllFuel, popMax]
    | some er =>
      obtain ⟨e, rest⟩ := er
      obtain ⟨hmem, hsub, hlen, hmax⟩ := popMax_spec q e rest hm
      have hrest : rest.length ≤ n := by omega
      obtain ⟨ihlen, ihsub, ihpw⟩ := ih rest hrest
      rw [popAllFuel, hm]
      refine ⟨by simp [ihlen]; omega, ?_, ?_⟩
      · intro x hx
        rcases List.mem_cons.mp hx with h1 | h1
        · subst h1; exact hmem
        · exact hsub.subset (ihsub x h1)
      · rw [List.pairwise_cons]
        refine ⟨?_, ihpw⟩
        intro b hb
        exact hmax b (hsub.subset (ihsub b hb))

theorem popAll_length (q : Queue) : (popAll q).length = q.length :=
  (popAllFuel_spec q.length q (le_refl _)).1

theorem popAll_subset (q : Queue) : ∀ x ∈ popAll q, x ∈ q :=
  (popAllFuel_spec q.length q (le_refl _)).2.1

theorem popAll_pairwise (q : Queue) : (popAll q).Pairwise (fun a b => b.1 ≤ a.1) :=
  (popAllFuel_spec q.length q (le_refl _)).2.2

theorem sumVals_foldl_bump (es : List (Int × Message)) (l : List (Nat × Int)) :
    sumVals (es.foldl (fun acc e => bumpVal acc e.2.address (-1)) l) =
      sumVals l - es.length := by
  induction es generalizing l with
  | nil => simp
  | cons e rest ih =>
    rw [List.foldl_cons, ih, sumVals_bumpVal]
    simp
    omega

theorem lookupVal_foldl_bump_le (es : List (Int × Message)) (l : List (Nat × Int)) (b : Nat) :
    lookupVal (es.foldl (fun acc e => bumpVal acc e.2.address (-1)) l) b ≤ lookupVal l b := by
  induction es generalizing l with
  | nil => exact le_refl _
  | cons e rest ih =>
    rw [List.foldl_cons]
    refine le_trans (ih _) ?_
    rw [lookupVal_bumpVal]
    split_ifs <;> omega

end QueueLemmas

section Invariants

theorem QWF_delSeq (l : List (Nat × Queue)) (s : Nat) (h : QWF l) : QWF (delSeq l s) :=
  fun kv hkv => h kv (mem_of_mem_delSeq l s kv hkv)

theorem QWF_pushSeq (l : List (Nat × Queue)) (s : Nat) (e : Int × Message)
    (h : QWF l) (he : ∀ v, decodeViewByCode e.2 = some v → e.1 = toPriority e.2.code v) :
    QWF (pushSeq l s e) := by
  induction l with
  | nil =>
    intro kv hkv e' he' v hv
    simp [pushSeq] at hkv
    subst hkv
    simp at he'
    subst he'
    exact he v hv
  | cons kv0 rest ih =>
    obtain ⟨k, q⟩ := kv0
    by_cases hks : k = s
    · subst hks
      intro kv hkv e' he' v hv
      have hp : pushSeq ((k, q) :: rest) k e = (k, q ++ [e]) :: rest := by
        simp [pushSeq]
      rw [hp] at hkv
      rcases List.mem_cons.mp hkv with h1 | h1
      · subst h1
        simp only at he'
        rcases List.mem_append.mp he' with h2 | h2
        · exact h (k, q) (List.mem_cons_self _ _) e' h2 v hv
        · simp at h2
          subst h2
          exact he v hv
      · exact h kv (List.mem_cons_of_mem _ h1) e' he' v hv
    · intro kv hkv e' he' v hv
      rw [pushSeq, if_neg hks] at hkv
      rcases List.mem_cons.mp hkv with h1 | h1
      · subst h1
        exact h (k, q) (List.mem_cons_self _ _) e' he' v hv
      · have hrest : QWF rest := fun kv' hkv' => h kv' (List.mem_cons_of_mem _ hkv')
        exact ih hrest kv h1 e' he' v hv

theorem invC9_drain (env : Env) (st : BacklogState) (seq : Nat) (h : InvC9 st) :
    InvC9 (drainBacklogForSeq env st seq).1 := by
  obtain ⟨hnd, hsz, hsv⟩ := h
  cases hq : lookupQ st.backlogBySeq seq with
  | none =>
    simp only [drainBacklogForSeq, hq]
    exact ⟨hnd, hsz, hsv⟩
  | some q =>
    simp only [drainBacklogForSeq, hq, InvC9]
    refine ⟨nodup_keys_delSeq _ _ hnd, ?_, ?_⟩
    · rw [sumSizes_delSeq_of_lookup _ _ q hnd hq, popAll_length]
      omega
    · rw [sumVals_foldl_bump, popAll_length]
      omega

theorem invC1_drain (env : Env) (st : BacklogState) (seq : Nat) (h : InvC1 st) :
    InvC1 (drainBacklogForSeq env st seq).1 := by
  cases hq : lookupQ st.backlogBySeq seq with
  | none =>
    simp only [drainBacklogForSeq, hq]
    exact h
  | some q =>
    simp only [drainBacklogForSeq, hq, InvC1]
    intro a
    exact le_trans (lookupVal_foldl_bump_le _ _ a) (h a)

theorem queuesWF_drain (env : Env) (st : BacklogState) (seq : Nat) (h : QueuesWF st) :
    QueuesWF (drainBacklogForSeq env st seq).1 := by
  cases hq : lookupQ st.backlogBySeq seq with
  | none =>
    simp only [drainBacklogForSeq, hq]
    exact h
  | some q =>
    simp only [drainBacklogForSeq, hq, QueuesWF]
    exact QWF_delSeq _ _ h

theorem invC9_pruneLoop (env : Env) (l : List Nat) (st : BacklogState) (h : InvC9 st) :
    InvC9 (pruneLoop env l st) := by
  induction l generalizing st with
  | nil => exact h
  | cons seq rest ih =>
    rw [pruneLoop]
    split_ifs with hc
    · exact h
    · exact ih _ (invC9_drain env st seq h)

theorem invC1_pruneLoop (env : Env) (l : List Nat) (st : BacklogState) (h : InvC1 st) :
    InvC1 (pruneLoop env l st) := by
  induction l generalizing st with
  | nil => exact h
  | cons seq rest ih =>
    rw [pruneLoop]
    split_ifs with hc
    · exact h
    · exact ih _ (invC1_drain env st seq h)

theorem queuesWF_pruneLoop (env : Env) (l : List Nat) (st : BacklogState) (h : QueuesWF st) :
    QueuesWF (pruneLoop env l st) := by
  induction l generalizing st with
  | nil => exact h
  | cons seq rest ih =>
    rw [pruneLoop]
    split_ifs with hc
    · exact h
    · exact ih _ (queuesWF_drain env st seq h)

theorem invC9_pruneIfNeeded (env : Env) (st : BacklogState) (h : InvC9 st) :
    InvC9 (pruneIfNeeded env st) := by
  rw [pruneIfNeeded]
  split_ifs with hc
  · exact invC9_pruneLoop env _ st h
  · exact h

theorem invC1_pruneIfNeeded (env : Env) (st : BacklogState) (h : InvC1 st) :
    InvC1 (pruneIfNeeded env st) := by
  rw [pruneIfNeeded]
  split_ifs with hc
  · exact invC1_pruneLoop env _ st h
  · exact h

theorem queuesWF_pruneIfNeeded (env : Env) (st : BacklogState) (h : QueuesWF st) :
    QueuesWF (pruneIfNeeded env st) := by
  rw [pruneIfNeeded]
  split_ifs with hc
  · exact queuesWF_pruneLoop env _ st h
  · exact h

theorem invC9_storeBody (env : Env) (st : BacklogState) (msg : Message) (srcAddr : Nat)
    (vOpt : Option View) (h : InvC9 st) :
    ∀ st', storeBody env st msg srcAddr vOpt = some st' → InvC9 st' := by
  intro st' hs
  obtain ⟨hnd, hsz, hsv⟩ := h
  unfold storeBody at hs
  split_ifs at hs with hcap
  · cases hs; exact ⟨hnd, hsz, hsv⟩
  · cases vOpt with
    | none => simp at hs
    | some v =>
      simp only [Option.some_inj] at hs
      subst hs
      refine invC9_pruneIfNeeded env _ ⟨nodup_keys_pushSeq _ _ _ hnd, ?_, ?_⟩
      · simp only [sumSizes_pushSeq]
        omega
      · simp only [sumVals_bumpVal]
        omega

theorem invC9_store (env : Env) (st : BacklogState) (msg : Message) (srcAddr : Nat)
    (h : InvC9 st) : ∀ st', storeBacklog env st msg srcAddr = some st' → InvC9 st' := by
  intro st' hs
  rw [storeBacklog] at hs
  split_ifs at hs with h1 h2
  · cases hs; exact h
  · cases hp : msg.payload with
    | none => rw [hp] at hs; cases hs; exact h
    | some v => rw [hp] at hs; exact invC9_storeBody env st msg srcAddr (some v) h st' hs
  · exact invC9_storeBody env st msg srcAddr none h st' hs

theorem invC1_storeBody (env : Env) (st : BacklogState) (msg : Message)
    (vOpt : Option View) (h : InvC1 st) :
    ∀ st', storeBody env st msg msg.address vOpt = some st' → InvC1 st' := by
  intro st' hs
  unfold storeBody at hs
  split_ifs at hs with hcap
  · cases hs; exact h
  · cases vOpt with
    | none => simp at hs
    | some v =>
      simp only [Option.some_inj] at hs
      subst hs
      refine invC1_pruneIfNeeded env _ ?_
      intro a
      simp only [lookupVal_bumpVal]
      split_ifs with ha
      · subst ha
        rw [not_lt] at hcap
        unfold acceptMaxFutureMsgsFromOneValidator at hcap ⊢
        omega
      · exact h a

theorem invC1_store (env : Env) (st : BacklogState) (msg : Message)
    (h : InvC1 st) : ∀ st', storeBacklog env st msg msg.address = some st' → InvC1 st' := by
  intro st' hs
  rw [storeBacklog] at hs
  split_ifs at hs with h1 h2
  · cases hs; exact h
  · cases hp : msg.payload with
    | none => rw [hp] at hs; cases hs; exact h
    | some v => rw [hp] at hs; exact invC1_storeBody env st msg (some v) h st' hs
  · exact invC1_storeBody env st msg none h st' hs

theorem queuesWF_storeBody (env : Env) (st : BacklogState) (msg : Message) (srcAddr : Nat)
    (vOpt : Option View) (h : QueuesWF st)
    (hv : ∀ v, vOpt = some v → ∀ v', decodeViewByCode msg = some v' → v' = v) :
    ∀ st', storeBody env st msg srcAddr vOpt = some st' → QueuesWF st' := by
  intro st' hs
  unfold storeBody at hs
  split_ifs at hs with hcap
  · cases hs; exact h
  · cases vOpt with
    | none => simp at hs
    | some v =>
      simp only [Option.some_inj] at hs
      subst hs
      refine queuesWF_pruneIfNeeded env _ ?_
      refine QWF_pushSeq _ _ _ h ?_
      intro v' hv'
      rw [hv v rfl v' hv']

theorem queuesWF_store (env : Env) (st : BacklogState) (msg : Message) (srcAddr : Nat)
    (h : QueuesWF st) : ∀ st', storeBacklog env st msg srcAddr = some st' → QueuesWF st' := by
  intro st' hs
  rw [storeBacklog] at hs
  split_ifs at hs with h1 h2
  · cases hs; exact h
  · cases hp : msg.payload with
    | none => rw [hp] at hs; cases hs; exact h
    | some v =>
      rw [hp] at hs
      refine queuesWF_storeBody env st msg srcAddr (some v) h ?_ st' hs
      intro v0 hv0 v' hv'
      rw [Option.some_inj] at hv0
      subst hv0
      rw [decodeViewByCode, if_pos h2, hp, Option.some_inj] at hv'
      exact hv'.symm
  · refine queuesWF_storeBody env st msg srcAddr none h ?_ st' hs
    intro v0 hv0
    simp at hv0

theorem invC9_processLoop (env : Env) (l : List Nat) (st : BacklogState)
    (acc : List Message) (h : InvC9 st) : InvC9 (processLoop env l st acc).1 := by
  induction l generalizing st acc with
  | nil => exact h
  | cons seq rest ih =>
    rw [processLoop]
    split_ifs with h1 h2
    · exact ih _ _ (invC9_drain env st seq h)
    · exact ih _ _ (invC9_drain env st seq h)
    · exact h

theorem invC1_processLoop (env : Env) (l : List Nat) (st : BacklogState)
    (acc : List Message) (h : InvC1 st) : InvC1 (processLoop env l st acc).1 := by
  induction l generalizing st acc with
  | nil => exact h
  | cons seq rest ih =>
    rw [processLoop]
    split_ifs with h1 h2
    · exact ih _ _ (invC1_drain env st seq h)
    · exact ih _ _ (invC1_drain env st seq h)
    · exact h

theorem queuesWF_processLoop (env : Env) (l : List Nat) (st : BacklogState)
    (acc : List Message) (h : QueuesWF st) : QueuesWF (processLoop env l st acc).1 := by
  induction l generalizing st acc with
  | nil => exact h
  | cons seq rest ih =>
    rw [processLoop]
    split_ifs with h1 h2
    · exact ih _ _ (queuesWF_drain env st seq h)
    · exact ih _ _ (queuesWF_drain env st seq h)
    · exact h

theorem runFrom_preserves (P : BacklogState → Prop) (W : Op → Prop)
    (hstep : ∀ st op, W op → P st → ∀ st', stepOp st op = some st' → P st') :
    ∀ ops st st', (∀ op ∈ ops, W op) → P st → runFrom st ops = some st' → P st' := by
  intro ops
  induction ops with
  | nil =>
    intro st st' _ hP hr
    rw [runFrom] at hr
    cases hr
    exact hP
  | cons op rest ih =>
    intro st st' hW hP hr
    rw [runFrom] at hr
    cases hs : stepOp st op with
    | none => rw [hs] at hr; simp at hr
    | some st1 =>
      rw [hs] at hr
      exact ih st1 st' (fun o ho => hW o (List.mem_cons_of_mem _ ho))
        (hstep st op (hW op (List.mem_cons_self _ _)) hP st1 hs) hr

theorem invC9_empty : InvC9 emptyBacklog := by
  refine ⟨List.nodup_nil, rfl, rfl⟩

theorem invC1_empty : InvC1 emptyBacklog := by
  intro a
  rw [emptyBacklog]
  simp [lookupVal, acceptMaxFutureMsgsFromOneValidator]

theorem queuesWF_empty : QueuesWF emptyBacklog := by
  intro kv hkv
  rw [emptyBacklog] at hkv
  simp at hkv

theorem invC9_runOps (ops : List Op) (st : BacklogState) (h : runOps ops = some st) :
    InvC9 st := by
  refine runFrom_preserves InvC9 (fun _ => True) ?_ ops emptyBacklog st
    (fun _ _ => trivial) invC9_empty h
  intro st0 op _ hP st' hs
  cases op with
  | store m src env => exact invC9_store env st0 m src hP st' hs
  | process env =>
    rw [stepOp, Option.some_inj] at hs
    subst hs
    exact invC9_processLoop env _ st0 [] hP

theorem invC1_runOps (ops : List Op) (st : BacklogState)
    (hW : ∀ op ∈ ops, op.srcOk) (h : runOps ops = some st) : InvC1 st := by
  refine runFrom_preserves InvC1 Op.srcOk ?_ ops emptyBacklog st hW invC1_empty h
  intro st0 op hok hP st' hs
  cases op with
  | store m src env =>
    rw [Op.srcOk] at hok
    subst hok
    exact invC1_store env st0 m hP st' hs
  | process env =>
    rw [stepOp, Option.some_inj] at hs
    subst hs
    exact invC1_processLoop env _ st0 [] hP

theorem queuesWF_runOps (ops : List Op) (st : BacklogState) (h : runOps ops = some st) :
    QueuesWF st := by
  refine runFrom_preserves QueuesWF (fun _ => True) ?_ ops emptyBacklog st
    (fun _ _ => trivial) queuesWF_empty h
  intro st0 op _ hP st' hs
  cases op with
  | store m src env => exact queuesWF_store env st0 m src hP st' hs
  | process env =>
    rw [stepOp, Option.some_inj] at hs
    subst hs
    exact queuesWF_processLoop env _ st0 [] hP

end Invariants

section ProcessLemmas

theorem lookupQ_drain_ne (env : Env) (st : BacklogState) (seq k : Nat) (h : k ≠ seq) :
    lookupQ (drainBacklogForSeq env st seq).1.backlogBySeq k = lookupQ st.backlogBySeq k := by
  cases hq : lookupQ st.backlogBySeq seq with
  | none => simp only [drainBacklogForSeq, hq]
  | some q =>
    simp only [drainBacklogForSeq, hq]
    exact lookupQ_delSeq_ne _ _ _ h

theorem lookupQ_drain_self (env : Env) (st : BacklogState) (seq : Nat) :
    lookupQ (drainBacklogForSeq env st seq).1.backlogBySeq seq = none := by
  cases hq : lookupQ st.backlogBySeq seq with
  | none =>
    simp only [drainBacklogForSeq, hq]
  | some q =>
    simp only [drainBacklogForSeq, hq]
    exact lookupQ_delSeq_self _ _

theorem mem_keys_drain (env : Env) (st : BacklogState) (seq s : Nat)
    (h : s ∈ (drainBacklogForSeq env st seq).1.backlogBySeq.map Prod.fst) :
    s ∈ st.backlogBySeq.map Prod.fst ∧ s ≠ seq := by
  cases hq : lookupQ st.backlogBySeq seq with
  | none =>
    simp only [drainBacklogForSeq, hq] at h
    refine ⟨h, ?_⟩
    intro hss
    subst hss
    rw [lookupQ_eq_none_iff] at hq
    exact hq h
  | some q =>
    simp only [drainBacklogForSeq, hq] at h
    exact (mem_keys_delSeq _ _ _).mp h

theorem drain_cb_mem (env : Env) (st : BacklogState) (seq : Nat) :
    ∀ m ∈ (drainBacklogForSeq env st seq).2,
      ∃ q, lookupQ st.backlogBySeq seq = some q ∧ m ∈ q.map Prod.snd := by
  intro m hm
  cases hq : lookupQ st.backlogBySeq seq with
  | none =>
    simp only [drainBacklogForSeq, hq] at hm
    simp at hm
  | some q =>
    refine ⟨q, rfl, ?_⟩
    simp only [drainBacklogForSeq, hq] at hm
    have hm2 := List.mem_of_mem_filter hm
    rcases List.mem_map.mp hm2 with ⟨e, he, hme⟩
    exact List.mem_map.mpr ⟨e, popAll_subset q e he, hme⟩

theorem processLoop_acc (env : Env) (l : List Nat) (st : BacklogState) (acc : List Message) :
    (processLoop env l st acc).2 = acc ++ (processLoop env l st []).2 := by
  induction l generalizing st acc with
  | nil => simp [processLoop]
  | cons seq rest ih =>
    rw [processLoop, processLoop]
    split_ifs with h1 h2
    · exact ih _ _
    · have h3 := ih (drainBacklogForSeq env st seq).1
        (acc ++ List.filter (replayCheck env) (drainBacklogForSeq env st seq).2)
      have h4 := ih (drainBacklogForSeq env st seq).1
        ([] ++ List.filter (replayCheck env) (drainBacklogForSeq env st seq).2)
      rw [h3, h4]
      simp
    · simp

theorem processLoop_no_past_keys (env : Env) (l : List Nat) (st : BacklogState)
    (acc : List Message) (hsort : l.Sorted (· ≤ ·))
    (hcov : ∀ s, s ∈ st.backlogBySeq.map Prod.fst →
      s < toUint64 env.currentView.sequence → s ∈ l) :
    ∀ s, s ∈ (processLoop env l st acc).1.backlogBySeq.map Prod.fst →
      ¬ s < toUint64 env.currentView.sequence := by
  induction l generalizing st acc with
  | nil =>
    intro s hs hlt
    exact absurd (hcov s hs hlt) (List.not_mem_nil s)
  | cons seq rest ih =>
    rw [List.sorted_cons] at hsort
    rw [processLoop]
    split_ifs with h1 h2
    · refine ih _ _ hsort.2 ?_
      intro s hs hlt
      obtain ⟨hmem, hne⟩ := mem_keys_drain env st seq s hs
      rcases List.mem_cons.mp (hcov s hmem hlt) with he | he
      · exact absurd he hne
      · exact he
    · refine ih _ _ hsort.2 ?_
      intro s hs hlt
      obtain ⟨hmem, hne⟩ := mem_keys_drain env st seq s hs
      rcases List.mem_cons.mp (hcov s hmem hlt) with he | he
      · exact absurd he hne
      · exact he
    · intro s hs hlt
      rcases List.mem_cons.mp (hcov s hs hlt) with he | he
      · subst he
        omega
      · have := hsort.1 s he
        omega

theorem processLoop_posts_from_cur (env : Env) (l : List Nat) (st : BacklogState)
    (acc : List Message) :
    ∀ m ∈ (processLoop env l st acc).2, m ∈ acc ∨ m ∈ msgsAtCur env st := by
  induction l generalizing st acc with
  | nil =>
    intro m hm
    exact Or.inl hm
  | cons seq rest ih =>
    rw [processLoop]
    split_ifs with h1 h2
    · intro m hm
      rcases ih _ _ m hm with h | h
      · exact Or.inl h
      · right
        rw [msgsAtCur] at h ⊢
        rw [lookupQ_drain_ne env st seq _ (by omega)] at h
        exact h
    · intro m hm
      rcases ih _ _ m hm with h | h
      · rcases List.mem_append.mp h with h3 | h3
        · exact Or.inl h3
        · right
          have h4 : m ∈ (drainBacklogForSeq env st seq).2 := List.mem_of_mem_filter h3
          obtain ⟨q, hq, hmq⟩ := drain_cb_mem env st seq m h4
          rw [msgsAtCur, ← h2, hq]
          exact hmq
      · exfalso
        rw [msgsAtCur, ← h2, lookupQ_drain_self env st seq] at h
        simp at h
    · intro m hm
      exact Or.inl hm

theorem lookupQ_mem (l : List (Nat × Queue)) (s : Nat) (q : Queue)
    (h : lookupQ l s = some q) : (s, q) ∈ l := by
  induction l with
  | nil => simp [lookupQ] at h
  | cons kv rest ih =>
    obtain ⟨k, q'⟩ := kv
    by_cases hks : k = s
    · subst hks
      rw [lookupQ, if_pos rfl, Option.some_inj] at h
      subst h
      exact List.mem_cons_self _ _
    · rw [lookupQ, if_neg hks] at h
      exact List.mem_cons_of_mem _ (ih h)

theorem replayCheck_decode (env : Env) (m : Message) (h : replayCheck env m = true) :
    (decodeViewByCode m).isSome := by
  rw [replayCheck] at h
  cases hd : decodeViewByCode m with
  | none => rw [hd] at h; simp at h
  | some v => simp

theorem msgPrio_eq (m : Message) (v : View) (h : decodeViewByCode m = some v) :
    msgPrio m = toPriority m.code v := by
  rw [msgPrio, h]

theorem drain_none (env : Env) (st : BacklogState) (seq : Nat)
    (h : lookupQ st.backlogBySeq seq = none) :
    drainBacklogForSeq env st seq = (st, []) := by
  simp only [drainBacklogForSeq, h]

theorem drain_posts_pairwise (env : Env) (st : BacklogState) (seq : Nat) (h : QueuesWF st) :
    ((drainBacklogForSeq env st seq).2.filter (replayCheck env)).Pairwise
      (fun a b => msgPrio b ≤ msgPrio a) := by
  cases hq : lookupQ st.backlogBySeq seq with
  | none => simp [drainBacklogForSeq, hq]
  | some q =>
    simp only [drainBacklogForSeq, hq]
    have hmem : (seq, q) ∈ st.backlogBySeq := lookupQ_mem _ _ _ hq
    have hWF : ∀ e ∈ q, ∀ v, decodeViewByCode e.2 = some v → e.1 = toPriority e.2.code v :=
      h (seq, q) hmem
    have hpw : (popAll q).Pairwise
        (fun a b => (decodeViewByCode a.2).isSome → (decodeViewByCode b.2).isSome →
          msgPrio b.2 ≤ msgPrio a.2) := by
      refine (popAll_pairwise q).imp_of_mem ?_
      intro a b ha hb hle hsa hsb
      obtain ⟨va, hva⟩ := Option.isSome_iff_exists.mp hsa
      obtain ⟨vb, hvb⟩ := Option.isSome_iff_exists.mp hsb
      rw [msgPrio_eq _ _ hva, msgPrio_eq _ _ hvb]
      rw [← hWF a (popAll_subset q a ha) va hva, ← hWF b (popAll_subset q b hb) vb hvb]
      exact hle
    have hpw2 : ((popAll q).map Prod.snd).Pairwise
        (fun m1 m2 => (decodeViewByCode m1).isSome → (decodeViewByCode m2).isSome →
          msgPrio m2 ≤ msgPrio m1) := List.pairwise_map.mpr hpw
    have hpw3 := hpw2.filter (fun m => env.valSet m.address)
    have hpw4 := hpw3.filter (replayCheck env)
    refine hpw4.imp_of_mem ?_
    intro a b ha hb hr
    have hra : replayCheck env a = true := (List.mem_filter.mp ha).2
    have hrb : replayCheck env b = true := (List.mem_filter.mp hb).2
    exact hr (replayCheck_decode env a hra) (replayCheck_decode env b hrb)

theorem processLoop_posts_nil (env : Env) (l : List Nat) (st : BacklogState)
    (hge : ∀ s ∈ l, toUint64 env.currentView.sequence ≤ s)
    (hnone : lookupQ st.backlogBySeq (toUint64 env.currentView.sequence) = none) :
    (processLoop env l st []).2 = [] := by
  induction l generalizing st with
  | nil => rfl
  | cons seq rest ih =>
    rw [processLoop]
    split_ifs with h1 h2
    · exact absurd (hge seq (List.mem_cons_self _ _)) (by omega)
    · rw [drain_none env st seq (h2 ▸ hnone)]
      exact ih st (fun s hs => hge s (List.mem_cons_of_mem _ hs)) hnone
    · rfl

theorem processLoop_posts_pairwise (env : Env) (l : List Nat) (st : BacklogState)
    (hsort : l.Sorted (· ≤ ·)) (h : QueuesWF st) :
    (processLoop env l st []).2.Pairwise (fun a b => msgPrio b ≤ msgPrio a) := by
  induction l generalizing st with
  | nil => simp [processLoop]
  | cons seq rest ih =>
    rw [List.sorted_cons] at hsort
    rw [processLoop]
    split_ifs with h1 h2
    · exact ih _ hsort.2 (queuesWF_drain env st seq h)
    · have hnil : (processLoop env rest (drainBacklogForSeq env st seq).1 []).2 = [] := by
        refine processLoop_posts_nil env rest _ ?_ ?_
        · intro s hs
          have := hsort.1 s hs
          omega
        · rw [← h2]
          exact lookupQ_drain_self env st seq
      rw [processLoop_acc, hnil, List.append_nil, List.nil_append]
      exact drain_posts_pairwise env st seq h
    · simp

end ProcessLemmas

section QuotaScenario

theorem runFrom_append (st : BacklogState) (l1 l2 : List Op) :
    runFrom st (l1 ++ l2) =
      match runFrom st l1 with
      | none => none
      | some st' => runFrom st' l2 := by
  induction l1 generalizing st with
  | nil => rfl
  | cons op rest ih =>
    rw [List.cons_append, runFrom, runFrom]
    cases hs : stepOp st op with
    | none => rfl
    | some st1 => exact ih st1

theorem c1_step0 : stepOp emptyBacklog c1op = some (c1state 1) := by decide

theorem c1_step (n : Nat) (h1 : 1 ≤ n) (h2 : n ≤ 1000) :
    stepOp (c1state n) c1op = some (c1state (n + 1)) := by
  show storeBacklog env5 (c1state n) pMsg 1 = some (c1state (n + 1))
  rw [storeBacklog, if_neg (by decide), if_pos (by decide)]
  show storeBody env5 (c1state n) pMsg 1 (some ⟨6, 0⟩) = some (c1state (n + 1))
  unfold storeBody
  have hlook : lookupVal (c1state n).backlogCountByVal pMsg.address = (n : Int) := by
    show lookupVal [(1, (n : Int))] 1 = (n : Int)
    rw [lookupVal, if_pos rfl]
  rw [if_neg (by
    rw [hlook]
    unfold acceptMaxFutureMsgsFromOneValidator
    omega)]
  show some (pruneIfNeeded env5
    ⟨pushSeq (c1state n).backlogBySeq (toUint64 (6 : Int)) (toPriority pMsg.code ⟨6, 0⟩, pMsg),
     bumpVal (c1state n).backlogCountByVal 1 1,
     (c1state n).backlogTotal + 1⟩) = some (c1state (n + 1))
  have e1 : toUint64 (6 : Int) = 6 := by decide
  have e2 : toPriority pMsg.code ⟨6, 0⟩ = -3 := by decide
  rw [e1, e2]
  show some (pruneIfNeeded env5
    ⟨pushSeq [(6, List.replicate n (-3, pMsg))] 6 (-3, pMsg),
     bumpVal [(1, (n : Int))] 1 1, (n : Int) + 1⟩) = some (c1state (n + 1))
  rw [pushSeq, if_pos rfl, bumpVal, if_pos rfl, ← List.replicate_succ']
  rw [pruneIfNeeded, if_neg (by
    show ¬ ((n : Int) + 1 > acceptMaxFutureMessages)
    unfold acceptMaxFutureMessages
    omega)]
  rw [c1state]
  push_cast
  rfl

theorem c1_runs (n : Nat) (h : n ≤ 1001) :
    runOps (List.replicate n c1op) =
      some (if n = 0 then emptyBacklog else c1state n) := by
  induction n with
  | zero => rfl
  | succ k ih =>
    have hk : k ≤ 1001 := by omega
    rw [runOps, List.replicate_succ', runFrom_append]
    have ih2 := ih hk
    rw [runOps] at ih2
    rw [ih2]
    by_cases hk0 : k = 0
    · subst hk0
      rw [if_pos rfl, if_neg (by omega)]
      show runFrom emptyBacklog [c1op] = some (c1state 1)
      rw [runFrom, c1_step0]
      rfl
    · rw [if_neg hk0, if_neg (by omega)]
      show runFrom (c1state k) [c1op] = some (c1state (k + 1))
      rw [runFrom, c1_step k (by omega) (by omega)]
      rfl

end QuotaScenario

section CmpLemmas

theorem view_cmp_lt (a b : View) : View.cmp a b < 0 ↔
    (a.sequence < b.sequence ∨ (a.sequence = b.sequence ∧ a.round < b.round)) := by
  rw [View.cmp]
  split_ifs <;> omega

theorem view_cmp_gt (a b : View) : View.cmp a b > 0 ↔
    (b.sequence < a.sequence ∨ (a.sequence = b.sequence ∧ b.round < a.round)) := by
  rw [View.cmp]
  split_ifs <;> omega

theorem toPriority_eval (code : Nat) (s r : Int) (h0 : 0 ≤ r)
    (hcode : code ≠ MsgRoundChange)
    (hr : 10 * r + (msgPriority code : Int) ≤ 2 ^ 63) :
    toPriority code ⟨s, r⟩ = -(10 * r + msgPriority code) := by
  rw [toPriority, if_neg hcode]
  dsimp only
  have hru : toUint64 r = r.toNat := by
    rw [toUint64]
    congr 1
    refine Int.emod_eq_of_lt h0 ?_
    omega
  rw [hru]
  have hcast : ((r.toNat * 10 + msgPriority code : Nat) : Int) =
      10 * r + msgPriority code := by
    push_cast [Int.toNat_of_nonneg h0]
    ring
  rw [hcast, wrap64]
  have hx1 : (0 : Int) ≤ -(10 * r + msgPriority code) + 2 ^ 63 := by omega
  have hx2 : -(10 * r + msgPriority code) + 2 ^ 63 < 2 ^ 64 := by omega
  rw [Int.emod_eq_of_lt hx1 hx2]
  ring

end CmpLemmas

/-- C2 counterexample: at round 0 the priorities are Preprepare = -1,
Commit = -2, Prepare = -3, so priority(Preprepare) < priority(Commit) fails
and priority(RoundChange) = 0 is not below same-round priorities; moreover the
uint64/int64 wraparound breaks round monotonicity at huge rounds. -/
theorem c2_counterexample :
    ¬ (toPriority MsgPreprepare ⟨0, 0⟩ < toPriority MsgCommit ⟨0, 0⟩) ∧
    ¬ (toPriority MsgRoundChange ⟨0, 0⟩ < toPriority MsgPrepare ⟨0, 0⟩) ∧
    ¬ (toPriority MsgPreprepare ⟨0, 922337203685477581⟩ <
        toPriority MsgPreprepare ⟨0, 922337203685477580⟩) := by
  decide

/-- C2 (amended): for rounds without uint64/int64 overflow (0 ≤ r and
10 r + 13 < 2^63), the priority of a fixed non-RoundChange kind strictly
decreases as the round grows; for a fixed round the numeric order is
priority(Preprepare) > priority(Commit) > priority(Prepare) (the prque pops
the largest value first, so Preprepare is replayed before Commit before
Prepare); priority(RoundChange) = 0, which is greater than the priority of
any same-round non-RoundChange message. -/
theorem c2_priority_monotonicity (s : Int) (r : Int) (h0 : 0 ≤ r)
    (hr : 10 * r + 13 < 2 ^ 63) :
    (∀ code, (code = MsgPreprepare ∨ code = MsgPrepare ∨ code = MsgCommit) →
      toPriority code ⟨s, r + 1⟩ < toPriority code ⟨s, r⟩) ∧
    toPriority MsgPreprepare ⟨s, r⟩ > toPriority MsgCommit ⟨s, r⟩ ∧
    toPriority MsgCommit ⟨s, r⟩ > toPriority MsgPrepare ⟨s, r⟩ ∧
    toPriority MsgRoundChange ⟨s, r⟩ = 0 ∧
    (∀ code, (code = MsgPreprepare ∨ code = MsgPrepare ∨ code = MsgCommit) →
      toPriority MsgRoundChange ⟨s, r⟩ > toPriority code ⟨s, r⟩) := by
  have hm1 : (msgPriority MsgPreprepare : Int) = 1 := by decide
  have hm2 : (msgPriority MsgCommit : Int) = 2 := by decide
  have hm3 : (msgPriority MsgPrepare : Int) = 3 := by decide
  have hpp := toPriority_eval MsgPreprepare s r h0 (by decide) (by omega)
  have hcm := toPriority_eval MsgCommit s r h0 (by decide) (by omega)
  have hpr := toPriority_eval MsgPrepare s r h0 (by decide) (by omega)
  have hrc : toPriority MsgRoundChange ⟨s, r⟩ = 0 := by
    rw [toPriority, if_pos rfl]
  refine ⟨?_, by omega, by omega, hrc, ?_⟩
  · intro code hc
    have h0' : (0 : Int) ≤ r + 1 := by omega
    rcases hc with h | h | h <;> subst h
    · have ha := toPriority_eval MsgPreprepare s (r + 1) h0' (by decide) (by omega)
      omega
    · have ha := toPriority_eval MsgPrepare s (r + 1) h0' (by decide) (by omega)
      omega
    · have ha := toPriority_eval MsgCommit s (r + 1) h0' (by decide) (by omega)
      omega
  · intro code hc
    rcases hc with h | h | h <;> subst h <;> omega

/-- C2 witness: the amended ordering at sequence 0, round 0. -/
theorem c2_witness :
    toPriority MsgPreprepare ⟨0, 0⟩ > toPriority MsgCommit ⟨0, 0⟩ ∧
    toPriority MsgRoundChange ⟨0, 0⟩ = 0 :=
  ⟨(c2_priority_monotonicity 0 0 (by decide) (by decide)).2.1,
   (c2_priority_monotonicity 0 0 (by decide) (by decide)).2.2.2.1⟩

/-- C4 counterexample: with current view (5, 2) and desired round 4, a
RoundChange for view (4, 0) has sequence below the current sequence and round
below the desired round; the code returns Old although the claim, whose Old
case requires sequence equality, predicts Admit. -/
theorem c4_counterexample :
    checkMessage env52 MsgRoundChange (vp 4 0) = some GoErr.errOldMessage ∧
    ¬ ((4 : Int) > env52.currentView.sequence) ∧
    ¬ ((4 : Int) = env52.currentView.sequence ∧ (0 : Int) < env52.desiredRound) := by
  decide

/-- C4 (amended): for a RoundChange with a well-formed view within the
future-sequence horizon, checkMessage returns Future when the sequence exceeds
the current sequence, Old when the round is below the desired round (for any
sequence at or below the current one, not only the current sequence), and
Admit otherwise. -/
theorem c4_roundchange_admission (env : Env) (s r : Int)
    (hhor : s ≤ env.currentView.sequence + acceptMaxFutureSequence) :
    checkMessage env MsgRoundChange (vp s r) =
      (if s > env.currentView.sequence then some GoErr.errFutureMessage
       else if r < env.desiredRound then some GoErr.errOldMessage
       else none) := by
  unfold checkMessage vp
  dsimp only
  rw [if_neg (by omega), if_pos rfl]

/-- C4 witness: the spec's round-change scenario at current view (5, 2),
desired round 4. -/
theorem c4_witness :
    checkMessage env52 MsgRoundChange (vp 5 3) = some GoErr.errOldMessage ∧
    checkMessage env52 MsgRoundChange (vp 5 4) = none ∧
    checkMessage env52 MsgRoundChange (vp 6 0) = some GoErr.errFutureMessage := by
  refine ⟨?_, ?_, ?_⟩
  · rw [c4_roundchange_admission env52 5 3 (by decide)]
    decide
  · rw [c4_roundchange_admission env52 5 4 (by decide)]
    decide
  · rw [c4_roundchange_admission env52 6 0 (by decide)]
    decide

/-- C5: for a non-RoundChange message whose well-formed view lies strictly
below the current view, and a successful last-committed-subject lookup,
checkMessage admits exactly the Commit whose view equals the last committed
subject's view and returns Old in every other case. -/
theorem c5_late_commit (env : Env) (code : Nat) (s r : Int) (sub : Subject)
    (hcode : code ≠ MsgRoundChange)
    (hlast : env.lastSubject = Except.ok sub)
    (hlt : View.cmp ⟨s, r⟩ env.currentView < 0) :
    checkMessage env code (vp s r) =
      (if code = MsgCommit ∧ View.cmp ⟨s, r⟩ sub.view = 0 then none
       else some GoErr.errOldMessage) := by
  have hs : s ≤ env.currentView.sequence := by
    rcases (view_cmp_lt ⟨s, r⟩ env.currentView).mp hlt with h | h
    · exact le_of_lt h
    · exact le_of_eq h.1
  unfold checkMessage vp
  dsimp only
  rw [if_neg (by unfold acceptMaxFutureSequence; omega), if_neg hcode,
    if_neg (by omega), if_pos hlt]
  by_cases hc : code = MsgCommit
  · rw [if_pos hc, hlast]
    dsimp only
    by_cases hv : View.cmp ⟨s, r⟩ sub.view = 0
    · rw [if_pos hv, if_pos ⟨hc, hv⟩]
    · rw [if_neg hv, if_neg (fun hh => hv hh.2)]
  · rw [if_neg hc, if_neg (fun hh => hc hh.1)]

/-- C5 witness: the spec's late-commit scenario at current view (10, 0) with
last committed subject (9, 3). -/
theorem c5_witness :
    checkMessage env10 MsgCommit (vp 9 3) = none ∧
    checkMessage env10 MsgCommit (vp 9 2) = some GoErr.errOldMessage ∧
    checkMessage env10 MsgPrepare (vp 9 3) = some GoErr.errOldMessage := by
  refine ⟨?_, ?_, ?_⟩
  · rw [c5_late_commit env10 MsgCommit 9 3 ⟨⟨9, 3⟩⟩ (by decide) rfl (by decide)]
    decide
  · rw [c5_late_commit env10 MsgCommit 9 2 ⟨⟨9, 3⟩⟩ (by decide) rfl (by decide)]
    decide
  · rw [c5_late_commit env10 MsgPrepare 9 3 ⟨⟨9, 3⟩⟩ (by decide) rfl (by decide)]
    decide

/-- C6: for every message with a well-formed view, checkMessage returns
TooFarInTheFuture exactly when the view's sequence exceeds the current
sequence plus acceptMaxFutureSequence = 10; the check precedes every
kind-specific rule (the equivalence holds for every kind and every state);
with current view (10, 0), a Preprepare for (21, 0) is TooFar and one for
(20, 0) is Future. -/
theorem c6_toofar :
    (∀ (env : Env) (code : Nat) (s r : Int),
      checkMessage env code (vp s r) = some GoErr.errTooFarInTheFutureMessage ↔
        s > env.currentView.sequence + acceptMaxFutureSequence) ∧
    checkMessage env10 MsgPreprepare (vp 21 0) = some GoErr.errTooFarInTheFutureMessage ∧
    checkMessage env10 MsgPreprepare (vp 20 0) = some GoErr.errFutureMessage := by
  refine ⟨?_, by decide, by decide⟩
  intro env code s r
  constructor
  · intro h
    by_contra hn
    unfold checkMessage vp at h
    dsimp only at h
    rw [if_neg hn] at h
    by_cases hrc : code = MsgRoundChange
    · rw [if_pos hrc] at h
      split_ifs at h <;> simp at h
    · rw [if_neg hrc] at h
      by_cases hgt : View.cmp ⟨s, r⟩ env.currentView > 0
      · rw [if_pos hgt] at h
        simp at h
      · rw [if_neg hgt] at h
        by_cases hlt : View.cmp ⟨s, r⟩ env.currentView < 0
        · rw [if_pos hlt] at h
          by_cases hc : code = MsgCommit
          · rw [if_pos hc] at h
            cases hls : env.lastSubject with
            | error n =>
              rw [hls] at h
              simp at h
            | ok sub =>
              rw [hls] at h
              dsimp only at h
              split_ifs at h
              simp at h
          · rw [if_neg hc] at h
            simp at h
        · rw [if_neg hlt] at h
          split_ifs at h <;> simp at h
  · intro h
    unfold checkMessage vp
    dsimp only
    rw [if_pos h]

/-- C6 witness: the equivalence applied at current view (10, 0) to a
Preprepare for view (21, 0). -/
theorem c6_witness :
    checkMessage env10 MsgPreprepare (vp 21 0) = some GoErr.errTooFarInTheFutureMessage :=
  (c6_toofar.1 env10 MsgPreprepare 21 0).mpr (by decide)

/-- C7 counterexample: when the last-committed-subject lookup fails, its error
is propagated: a Commit for past view (4, 0) under a failing lookup yields the
backend error, which is none of the five documented outcomes. -/
theorem c7_counterexample :
    checkMessage envErr MsgCommit (vp 4 0) = some (GoErr.backendErr 0) ∧
    GoErr.backendErr 0 ≠ GoErr.errInvalidMessage ∧
    GoErr.backendErr 0 ≠ GoErr.errFutureMessage ∧
    GoErr.backendErr 0 ≠ GoErr.errOldMessage ∧
    GoErr.backendErr 0 ≠ GoErr.errTooFarInTheFutureMessage ∧
    some (GoErr.backendErr 0) ≠ (none : Option GoErr) := by
  decide

/-- C7 (amended): for every input and every collaborator result, checkMessage
returns Admit, Invalid, Future, Old, or TooFar, except that when the
last-committed-subject lookup fails its error value is returned unchanged
(the engine still just drops the message). -/
theorem c7_outcomes (env : Env) (code : Nat) (view : Option ViewPtr) :
    checkMessage env code view = none ∨
    checkMessage env code view = some GoErr.errInvalidMessage ∨
    checkMessage env code view = some GoErr.errFutureMessage ∨
    checkMessage env code view = some GoErr.errOldMessage ∨
    checkMessage env code view = some GoErr.errTooFarInTheFutureMessage ∨
    (∃ n, checkMessage env code view = some (GoErr.backendErr n) ∧
      env.lastSubject = Except.error n) := by
  cases view with
  | none => exact Or.inr (Or.inl rfl)
  | some vP =>
    cases hs : vP.sequence with
    | none =>
      unfold checkMessage
      dsimp only
      rw [hs]
      exact Or.inr (Or.inl rfl)
    | some s =>
      cases hr : vP.round with
      | none =>
        unfold checkMessage
        dsimp only
        rw [hs, hr]
        exact Or.inr (Or.inl rfl)
      | some r =>
        unfold checkMessage
        dsimp only
        rw [hs, hr]
        dsimp only
        by_cases h1 : s > env.currentView.sequence + acceptMaxFutureSequence
        · rw [if_pos h1]
          exact Or.inr (Or.inr (Or.inr (Or.inr (Or.inl rfl))))
        · rw [if_neg h1]
          by_cases h2 : code = MsgRoundChange
          · rw [if_pos h2]
            by_cases h3 : s > env.currentView.sequence
            · rw [if_pos h3]
              exact Or.inr (Or.inr (Or.inl rfl))
            · rw [if_neg h3]
              by_cases h4 : r < env.desiredRound
              · rw [if_pos h4]
                exact Or.inr (Or.inr (Or.inr (Or.inl rfl)))
              · rw [if_neg h4]
                exact Or.inl rfl
          · rw [if_neg h2]
            by_cases h5 : View.cmp ⟨s, r⟩ env.currentView > 0
            · rw [if_pos h5]
              exact Or.inr (Or.inr (Or.inl rfl))
            · rw [if_neg h5]
              by_cases h6 : View.cmp ⟨s, r⟩ env.currentView < 0
              · rw [if_pos h6]
                by_cases h7 : code = MsgCommit
                · rw [if_pos h7]
                  cases hls : env.lastSubject with
                  | error n =>
                    exact Or.inr (Or.inr (Or.inr (Or.inr (Or.inr ⟨n, rfl, rfl⟩))))
                  | ok sub =>
                    dsimp only
                    by_cases h8 : View.cmp ⟨s, r⟩ sub.view = 0
                    · rw [if_pos h8]
                      exact Or.inl rfl
                    · rw [if_neg h8]
                      exact Or.inr (Or.inr (Or.inr (Or.inl rfl)))
                · rw [if_neg h7]
                  exact Or.inr (Or.inr (Or.inr (Or.inl rfl)))
              · rw [if_neg h6]
                by_cases h9 : env.state = IState.stateWaitingForNewRound
                · rw [if_pos h9]
                  exact Or.inr (Or.inr (Or.inl rfl))
                · rw [if_neg h9]
                  by_cases h10 : env.state = IState.stateAcceptRequest
                  · rw [if_pos h10]
                    by_cases h11 : code > MsgPreprepare
                    · rw [if_pos h11]
                      exact Or.inr (Or.inr (Or.inl rfl))
                    · rw [if_neg h11]
                      exact Or.inl rfl
                  · rw [if_neg h10]
                    exact Or.inl rfl

/-- C10 counterexample: a message with unknown code 7 from a sender already
over the per-validator cap passes the self-check but returns at the cap check,
so it never reaches the per-sequence push; the claim predicts a nil-view
dereference for every unknown-code message passing the self-check. -/
theorem c10_counterexample :
    badMsg.address ≠ env5.self ∧
    ¬ (badMsg.code = MsgPreprepare ∨ badMsg.code = MsgPrepare ∨
        badMsg.code = MsgCommit ∨ badMsg.code = MsgRoundChange) ∧
    storeBacklog env5 stCap badMsg 1 = some stCap := by
  decide

/-- C10 (amended): storeBacklog never dereferences a nil view for the four
istanbul codes (it returns early or pushes the decoded view), while for any
other code value that passes both the self-check and the per-validator cap
check, execution reaches the per-sequence push with a nil view and
dereferences it (modelled as the none result). -/
theorem c10_store_safety (env : Env) (st : BacklogState) (msg : Message) (srcAddr : Nat) :
    ((msg.code = MsgPreprepare ∨ msg.code = MsgPrepare ∨ msg.code = MsgCommit ∨
        msg.code = MsgRoundChange) →
      (storeBacklog env st msg srcAddr).isSome = true) ∧
    (¬ (msg.code = MsgPreprepare ∨ msg.code = MsgPrepare ∨ msg.code = MsgCommit ∨
        msg.code = MsgRoundChange) →
      msg.address ≠ env.self →
      lookupVal st.backlogCountByVal msg.address ≤ acceptMaxFutureMsgsFromOneValidator →
      storeBacklog env st msg srcAddr = none) := by
  constructor
  · intro hcode
    rw [storeBacklog]
    by_cases h1 : msg.address = env.self
    · rw [if_pos h1]
      rfl
    · rw [if_neg h1, if_pos hcode]
      cases hp : msg.payload with
      | none => rfl
      | some v =>
        unfold storeBody
        split_ifs with hcap
        · rfl
        · rfl
  · intro hcode haddr hcap
    rw [storeBacklog, if_neg haddr, if_neg hcode]
    unfold storeBody
    rw [if_neg (by omega)]

/-- C10 witness: a Prepare from a fresh sender is stored without panic, while
an unknown-code message from a fresh sender dereferences the nil view. -/
theorem c10_witness :
    (storeBacklog env5 emptyBacklog pMsg 1).isSome = true ∧
    storeBacklog env5 emptyBacklog badMsg 1 = none :=
  ⟨(c10_store_safety env5 emptyBacklog pMsg 1).1 (by decide),
   (c10_store_safety env5 emptyBacklog badMsg 1).2 (by decide) (by decide) (by decide)⟩

/-- C1 counterexample: the cap check uses a strict comparison, so pushing 1001
future messages from one sender into an empty backlog stores all 1001 of them:
the per-sender counter reaches 1001, not the claimed 1000, and the single
queue holds 1001 entries. -/
theorem c1_counterexample :
    runOps (List.replicate 1001 c1op) = some (c1state 1001) ∧
    lookupVal (c1state 1001).backlogCountByVal 1 = 1001 ∧
    (c1state 1001).backlogBySeq.map (fun kv => kv.2.length) = [1001] ∧
    (1001 : Int) ≠ 1000 := by
  refine ⟨?_, rfl, ?_, by decide⟩
  · have h := c1_runs 1001 (by omega)
    rw [if_neg (by decide)] at h
    exact h
  · rw [c1state]
    simp only [List.map_cons, List.map_nil, List.length_replicate]

/-- C1 (amended): after any sequence of well-formed storeBacklog and
processBacklog calls from an empty backlog, no per-sender counter exceeds
acceptMaxFutureMsgsFromOneValidator + 1 = 1001 (the strict cap comparison
admits one message beyond the constant); pushing 1001 future messages from one
sender into an empty backlog leaves exactly 1001 entries from that sender. -/
theorem c1_sender_cap :
    (∀ (ops : List Op) (st : BacklogState), (∀ op ∈ ops, op.srcOk) →
      runOps ops = some st →
      ∀ a : Nat, lookupVal st.backlogCountByVal a ≤ acceptMaxFutureMsgsFromOneValidator + 1) ∧
    runOps (List.replicate 1001 c1op) = some (c1state 1001) ∧
    lookupVal (c1state 1001).backlogCountByVal 1 = 1001 := by
  refine ⟨?_, ?_, rfl⟩
  · intro ops st hW h a
    exact invC1_runOps ops st hW h a
  · have h := c1_runs 1001 (by omega)
    rw [if_neg (by decide)] at h
    exact h

/-- C1 witness: the cap bound applied to the backlog reached by a single
store. -/
theorem c1_witness :
    lookupVal (c1state 1).backlogCountByVal 1 ≤ acceptMaxFutureMsgsFromOneValidator + 1 := by
  refine c1_sender_cap.1 [c1op] (c1state 1) ?_ ?_ 1
  · intro op hop
    rw [List.mem_singleton] at hop
    subst hop
    decide
  · have h := c1_runs 1 (by omega)
    rw [if_neg (by decide)] at h
    exact h

/-- C9: after any sequence of storeBacklog and processBacklog calls from an
empty backlog (including the pruning they trigger), the global total counter
equals the sum of the per-validator counters and equals the sum of the sizes
of the per-sequence queues. -/
theorem c9_counter_consistency (ops : List Op) (st : BacklogState)
    (h : runOps ops = some st) :
    st.backlogTotal = sumVals st.backlogCountByVal ∧
    st.backlogTotal = sumSizes st.backlogBySeq := by
  have hinv := invC9_runOps ops st h
  exact ⟨hinv.2.2, hinv.2.1⟩

/-- C9 witness: counter consistency of the backlog reached by a single store. -/
theorem c9_witness :
    (c1state 1).backlogTotal = sumVals (c1state 1).backlogCountByVal ∧
    (c1state 1).backlogTotal = sumSizes (c1state 1).backlogBySeq := by
  refine c9_counter_consistency [c1op] (c1state 1) ?_
  have h := c1_runs 1 (by omega)
  rw [if_neg (by decide)] at h
  exact h

/-- C8: after processBacklog returns, no per-sequence queue keyed below the
current sequence remains; every posted message comes from the queue keyed by
the current sequence (so nothing from a past sequence reaches the bus); with
entries only at sequences 3 and 4 and current view (5, 0), processBacklog
empties the backlog and posts nothing. -/
theorem c8_no_past_sequences :
    (∀ (env : Env) (st : BacklogState) (s : Nat),
      s ∈ (processBacklog env st).1.backlogBySeq.map Prod.fst →
      ¬ s < toUint64 env.currentView.sequence) ∧
    (∀ (env : Env) (st : BacklogState) (m : Message),
      m ∈ (processBacklog env st).2 → m ∈ msgsAtCur env st) ∧
    processBacklog env5 st34 = (⟨[], [(1, 0)], 0⟩, []) := by
  refine ⟨?_, ?_, by decide⟩
  · intro env st s hs
    refine processLoop_no_past_keys env (getSortedBacklogSeqs st) st [] ?_ ?_ s hs
    · exact List.sorted_insertionSort _ _
    · intro s' hs' _
      rw [getSortedBacklogSeqs]
      exact (List.perm_insertionSort _ _).mem_iff.mpr hs'
  · intro env st m hm
    rcases processLoop_posts_from_cur env (getSortedBacklogSeqs st) st [] m hm with h | h
    · exact absurd h (List.not_mem_nil m)
    · exact h

/-- C8 witness: a queue parked at the future sequence 7 survives a replay at
current sequence 5, and its key is indeed not below the current sequence. -/
theorem c8_witness :
    ¬ (7 : Nat) < toUint64 env5.currentView.sequence := by
  refine c8_no_past_sequences.1 env5
    ⟨[(7, [((0 : Int), pMsg)])], [(1, 1)], 1⟩ 7 ?_
  decide

/-- C3: replay order. Within one replay, the messages processBacklog posts to
the bus are in non-increasing toPriority order (the prque pops the largest
priority first), for every backlog reachable from empty by storeBacklog and
processBacklog calls; in the spec's scenario the four messages for sequence 6
stored in arrival order Prepare, Preprepare, Commit, RoundChange are posted in
the order RoundChange, Preprepare, Commit, Prepare once the view advances to
(6, 0). -/
theorem c3_replay_order :
    (∀ (ops : List Op) (st : BacklogState) (env : Env), runOps ops = some st →
      (processBacklog env st).2.Pairwise (fun a b => msgPrio b ≤ msgPrio a)) ∧
    (runOps scenarioOps).map (fun st => (processBacklog env6 st).2) =
      some [rcMsg, ppMsg, cMsg, pMsg] := by
  refine ⟨?_, by decide⟩
  intro ops st env h
  have hWF := queuesWF_runOps ops st h
  exact processLoop_posts_pairwise env (getSortedBacklogSeqs st) st
    (List.sorted_insertionSort _ _) hWF

/-- C3 witness: the posted messages of the scenario backlog are sorted by
priority. -/
theorem c3_witness :
    (processBacklog env6 ⟨[(6, [(-3, pMsg), (-1, ppMsg), (-2, cMsg), (0, rcMsg)])],
      [(1, 4)], 4⟩).2.Pairwise (fun a b => msgPrio b ≤ msgPrio a) := by
  refine c3_replay_order.1 scenarioOps _ env6 ?_
  decide

end IstCore
